import Mathlib

/-!
Verification of the Teacher-Tailor resume-tailoring application (`src/App.py`)
against its natural-language specification.

The Python source is shallowly embedded: strings are modelled as `List Char`
(`Str`), Python `in` (substring test) as `containsSub`, `str.lower` as
character-wise `Char.toLower`, `str.strip` as dropping whitespace from both
ends.  Randomness (`random.sample`) is modelled by an explicit selection
oracle argument, and I/O effects (PDF parsing, the OpenAI call, the HTTP
request) by explicit data arguments describing their outcomes.
-/

/-- Python strings, modelled as lists of characters. -/
abbrev Str := List Char

/-- `s.lower()` in Python: character-wise lowercasing. -/
def lower (s : Str) : Str := s.map Char.toLower

/-- `pat in hay` in Python: `pat` occurs as a contiguous substring of `hay`. -/
def containsSub (pat : Str) : Str → Bool
  | [] => pat.isEmpty
  | c :: t => pat.isPrefixOf (c :: t) || containsSub pat t

/-- The characters removed by Python's `str.strip()`: exactly the characters
for which CPython's `str.isspace()` holds — U+0009 to U+000D, U+001C to
U+001F, the space U+0020, U+0085 (NEL), U+00A0 (NBSP), U+1680 (Ogham space),
U+2000 to U+200A (typographic spaces), U+2028, U+2029 (line and paragraph
separators), U+202F, U+205F and U+3000. -/
def isSpace (c : Char) : Bool :=
  let n := c.toNat
  decide ((0x09 ≤ n ∧ n ≤ 0x0d) ∨ n = 0x20 ∨ (0x1c ≤ n ∧ n ≤ 0x1f) ∨
    n = 0x85 ∨ n = 0xa0 ∨ n = 0x1680 ∨ (0x2000 ≤ n ∧ n ≤ 0x200a) ∨
    n = 0x2028 ∨ n = 0x2029 ∨ n = 0x202f ∨ n = 0x205f ∨ n = 0x3000)

/-- Leading-whitespace removal (`str.lstrip()`). -/
def ltrim (l : Str) : Str := l.dropWhile isSpace

/-- Trailing-whitespace removal (`str.rstrip()`). -/
def rtrim (l : Str) : Str := (l.reverse.dropWhile isSpace).reverse

/-- `str.strip()`: remove whitespace from both ends. -/
def strip (l : Str) : Str := ltrim (rtrim l)

/-- The static skill taxonomy `SKILL_MAP` of `src/App.py`, in source order. -/
def SKILL_MAP : List (Str × List Str) :=
  [ ("classroom management".toList,
      [ "behavior management".toList, "positive reinforcement".toList,
        "PBIS".toList, "restorative practices".toList,
        "differentiated discipline".toList,
        "student engagement strategies".toList ]),
    ("curriculum design".toList,
      [ "lesson planning".toList, "backward design".toList,
        "standards alignment".toList, "UDL".toList, "scaffolding".toList,
        "interdisciplinary units".toList ]),
    ("assessment".toList,
      [ "formative assessment".toList, "summative assessment".toList,
        "data-driven instruction".toList, "rubric design".toList,
        "progress monitoring".toList, "IEP goals".toList ]),
    ("technology integration".toList,
      [ "Google Classroom".toList, "SmartBoard".toList, "EdTech".toList,
        "blended learning".toList, "LMS".toList, "Kahoot".toList,
        "Seesaw".toList, "Flipgrid".toList, "Nearpod".toList ]),
    ("differentiated instruction".toList,
      [ "tiered assignments".toList, "learning styles".toList,
        "multiple intelligences".toList, "small group instruction".toList,
        "flexible grouping".toList, "accommodations".toList ]),
    ("parent communication".toList,
      [ "parent-teacher conferences".toList, "newsletters".toList,
        "Remind app".toList, "ClassDojo".toList, "email updates".toList,
        "family engagement".toList ]),
    ("special education".toList,
      [ "IEP".toList, "504 plans".toList, "co-teaching".toList,
        "inclusion".toList, "behavior intervention plans".toList,
        "accommodations vs modifications".toList ]),
    ("social-emotional learning".toList,
      [ "SEL".toList, "growth mindset".toList,
        "trauma-informed practices".toList, "mindfulness".toList,
        "character education".toList ]) ]

/-- `filename.rsplit('.', 1)[1]`: the segment after the last dot
(meaningful when the filename contains a dot). -/
def afterLastDot (l : Str) : Str :=
  (l.reverse.takeWhile (fun c => !(c == '.'))).reverse

/-- `allowed_file` of `src/App.py`:
`'.' in filename and filename.rsplit('.', 1)[1].lower() in ALLOWED_EXTENSIONS`
with `ALLOWED_EXTENSIONS = {'pdf'}`. -/
def allowed_file (filename : Str) : Bool :=
  decide ('.' ∈ filename) && decide (lower (afterLastDot filename) = "pdf".toList)

/-- The fragment `" | <kw>"` appended for one keyword (`expanded += f" | {kw}"`). -/
def frag (kw : Str) : Str := " | ".toList ++ kw

/-- The inner loop of `expand_keywords`:
`for kw in selected: if kw not in expanded: expanded += f" | {kw}"`. -/
def expandStep (expanded : Str) : List Str → Str
  | [] => expanded
  | kw :: rest =>
      if containsSub kw expanded then expandStep expanded rest
      else expandStep (expanded ++ frag kw) rest

/-- The outer loop of `expand_keywords` over the taxonomy entries, each paired
with the outcome of its `random.sample(keywords, min(2, len(keywords)))` call
(the selection oracle `sel`). The match test is
`generic.lower() in text.lower()` against the original input `text`. -/
def expandAux (text : Str) (expanded : Str) : List ((Str × List Str) × List Str) → Str
  | [] => expanded
  | ((generic, _kws), selected) :: rest =>
      if containsSub (lower generic) (lower text) then
        expandAux text (expandStep expanded selected) rest
      else
        expandAux text expanded rest

/-- `expand_keywords(text, skill_map)` of `src/App.py`, with the random
samples supplied explicitly: `sel` lists, for each taxonomy entry in order,
the outcome of `random.sample` for that entry (consulted only when the
entry's label matches). -/
def expand_keywords (text : Str) (skill_map : List (Str × List Str))
    (sel : List (List Str)) : Str :=
  expandAux text text (skill_map.zip sel)

/-- `random.sample(keywords, min(2, len(keywords)))` returns `min 2 |keywords|`
distinct elements of `keywords` (sampling without replacement). This predicate
is the contract of one such sample. -/
def ValidSample (keywords selected : List Str) : Prop :=
  selected.length = min 2 keywords.length ∧ selected.Nodup ∧
    ∀ k ∈ selected, k ∈ keywords

/-- Instrumented variant of `expandStep` that also records the keywords it
appends, in order. -/
def expandStepL (expanded : Str) (acc : List Str) : List Str → Str × List Str
  | [] => (expanded, acc)
  | kw :: rest =>
      if containsSub kw expanded then expandStepL expanded acc rest
      else expandStepL (expanded ++ frag kw) (acc ++ [kw]) rest

/-- Instrumented variant of `expandAux` recording all appended keywords. -/
def expandAuxL (text : Str) (expanded : Str) (acc : List Str) :
    List ((Str × List Str) × List Str) → Str × List Str
  | [] => (expanded, acc)
  | ((generic, _kws), selected) :: rest =>
      if containsSub (lower generic) (lower text) then
        let p := expandStepL expanded acc selected
        expandAuxL text p.1 p.2 rest
      else
        expandAuxL text expanded acc rest

/-- The keywords `expand_keywords` appends, in append order. -/
def appendedKeywords (text : Str) (skill_map : List (Str × List Str))
    (sel : List (List Str)) : List Str :=
  (expandAuxL text text [] (skill_map.zip sel)).2

/-- The loop body of `extract_text_from_pdf`:
`if page_text: text += page_text + "\n"` (a `None` or empty page text is
falsy and contributes nothing). -/
def pageStep (acc : Str) (p : Option Str) : Str :=
  match p with
  | none => acc
  | some t => if t.isEmpty then acc else acc ++ t ++ ['\n']

/-- `extract_text_from_pdf` of `src/App.py`, with the PDF modelled (as the
spec does) by the ordered list of its per-page `page.extract_text()` results
(`none` for `None`). The result is `text.strip()` of the accumulated text. -/
def extract_text_from_pdf (pages : List (Option Str)) : Str :=
  strip (pages.foldl pageStep [])

/-- The non-empty page texts of a PDF, in document order. -/
def pageTexts (pages : List (Option Str)) : List Str :=
  pages.filterMap (fun p =>
    match p with
    | none => none
    | some t => if t.isEmpty then none else some t)

/-- The text accumulated by the extractor loop before the final `strip`:
each contributing page text followed by one `'\n'`. -/
def extractBody (pages : List (Option Str)) : Str :=
  ((pageTexts pages).map (fun t => t ++ ['\n'])).flatten

/-- Joining a list of page texts with a single newline per page boundary
(the spec's description of the extractor's concatenation). -/
def joinNL : List Str → Str
  | [] => []
  | [t] => t
  | t :: rest => t ++ '\n' :: joinNL rest

/-- Modelled from the spec: the extractor contract "return the concatenation
joined by a single newline per page boundary, with leading/trailing
whitespace stripped from the final result". -/
def extract_spec (pages : List (Option Str)) : Str :=
  strip (joinNL (pageTexts pages))

/-- The fixed text of the prompt template of `generate_tailored_resume` up to
and including the `RESUME:` label line (everything before `{resume_text}`). -/
def promptHead : Str :=
  ("\nYou are an expert resume consultant for teachers.\nYour task: Rewrite the teacher\x27s resume to perfectly match the job description.\n\nRULES:\n1. Keep the teacher\x27s name, contact info, and education unchanged.\n2. Reorder and rephrase experience bullets to highlight skills from the job description.\n3. Use strong action verbs and quantifiable achievements where possible.\n4. Integrate relevant keywords naturally (from job description AND skill map).\n5. Keep total length similar to original (don\u2019t add fluff).\n6. Output ONLY the final resume in clean, plain text.\n\nRESUME:\n").toList

/-- The fixed template text between `{resume_text}` and `{job_description}`. -/
def promptMid : Str := "\n\nJOB DESCRIPTION:\n".toList

/-- The fixed template text after `{job_description}`. -/
def promptTail : Str := "\n\nTAILORED RESUME:\n".toList

/-- The prompt string composed by `generate_tailored_resume` of `src/App.py`:
the f-string template with `resume_text` and `job_description` interpolated. -/
def tailor_prompt (resume_text job_description : Str) : Str :=
  promptHead ++ resume_text ++ promptMid ++ job_description ++ promptTail

/-- Split a string at newline characters (boundaries of physical lines). -/
def splitNL : Str → List Str
  | [] => [[]]
  | c :: t =>
      if c = '\n' then [] :: splitNL t
      else
        match splitNL t with
        | [] => [[c]]
        | l :: ls => (c :: l) :: ls

/-- A numbered rewriting-rule line of the prompt: a line of the shape
`<digit>. <text>`. -/
def isRuleLine : Str → Bool
  | c :: '.' :: ' ' :: _ => c.isDigit
  | _ => false

/-- Number of numbered rewriting-rule lines occurring in a string. -/
def countRules (s : Str) : Nat := ((splitNL s).filter isRuleLine).length

/-- The keyword list of the `"classroom management"` taxonomy entry. -/
def cmKeywords : List Str :=
  [ "behavior management".toList, "positive reinforcement".toList,
    "PBIS".toList, "restorative practices".toList,
    "differentiated discipline".toList,
    "student engagement strategies".toList ]

/-- The distinct response outcomes of the `/tailor` route of `src/App.py`. -/
inductive ResponseKind where
  /-- 400: `"No resume file uploaded"`. -/
  | noFile
  /-- 400: `"No file selected"`. -/
  | noFilename
  /-- 400: `"Job description is required"`. -/
  | noJobDesc
  /-- 400: `"Invalid file type. Only PDF allowed."`. -/
  | badType
  /-- an uncaught exception escapes `tailor_resume` (pdfplumber failed). -/
  | extractExn
  /-- 400: `"Could not extract text from PDF"`. -/
  | emptyContent
  /-- 500: `"OpenAI error: ..."`. -/
  | openaiError
  /-- 200: the JSON with the preview and the tailored resume. -/
  | success
deriving DecidableEq

/-- Observable outcome of one `/tailor` request: which response was produced,
whether `file.save(filepath)` ran, and whether `os.remove(filepath)` ran
before control left the handler. -/
structure TailorResult where
  response : ResponseKind
  fileSaved : Bool
  fileRemoved : Bool
deriving DecidableEq

/-- The `/tailor` handler `tailor_resume` of `src/App.py`, with its outer
effects abstracted: `hasFile` is whether `'resume' in request.files`,
`filename` the upload's filename, `jobDescRaw` the raw form field,
`extractRes` the outcome of `extract_text_from_pdf` on the saved file
(`Except.error` when pdfplumber raises), and `rewriteRes` the outcome of the
OpenAI call (`Except.error` when it raises). The control flow follows the
source line by line. -/
def tailor_resume (hasFile : Bool) (filename : Str) (jobDescRaw : Str)
    (extractRes : Except Unit Str) (rewriteRes : Except Str Str) :
    TailorResult :=
  if !hasFile then ⟨.noFile, false, false⟩
  else
    let jobDesc := strip jobDescRaw
    if filename.isEmpty then ⟨.noFilename, false, false⟩
    else if jobDesc.isEmpty then ⟨.noJobDesc, false, false⟩
    else if allowed_file filename then
      -- file.save(filepath) has run on every branch below
      match extractRes with
      | .error _ => ⟨.extractExn, true, false⟩  -- exception propagates, no os.remove
      | .ok resume_text =>
          if (strip resume_text).isEmpty then ⟨.emptyContent, true, true⟩
          else
            match rewriteRes with
            | .error _ => ⟨.openaiError, true, true⟩
            | .ok _ => ⟨.success, true, true⟩
    else ⟨.badType, false, false⟩

/-! ## Helper lemmas on substring containment -/

/-- The empty list is a prefix of every list. -/
theorem nil_isPrefixOf : ∀ l : Str, List.isPrefixOf [] l = true
  | [] => rfl
  | _ :: _ => rfl

/-- `isPrefixOf` is stable under extending the larger list on the right. -/
theorem isPrefixOf_append_ext : ∀ (xs ys zs : Str),
    xs.isPrefixOf ys = true → xs.isPrefixOf (ys ++ zs) = true
  | [], ys, zs, _ => nil_isPrefixOf (ys ++ zs)
  | _ :: _, [], _, h => by simp [List.isPrefixOf] at h
  | x :: xs, y :: ys, zs, h => by
      simp only [List.isPrefixOf, Bool.and_eq_true] at h
      simp only [List.cons_append, List.isPrefixOf, Bool.and_eq_true]
      exact ⟨h.1, isPrefixOf_append_ext xs ys zs h.2⟩

/-- Every list has the empty list as a substring. -/
theorem containsSub_nil : ∀ l : Str, containsSub [] l = true
  | [] => rfl
  | _ :: _ => by simp [containsSub, List.isPrefixOf]

/-- Reflexivity of `isPrefixOf`. -/
theorem isPrefixOf_refl : ∀ xs : Str, xs.isPrefixOf xs = true
  | [] => rfl
  | _ :: xs => by simp [List.isPrefixOf, isPrefixOf_refl xs]

/-- Substring occurrence is stable under extending the text on the right. -/
theorem containsSub_mono : ∀ (pat hay ext : Str),
    containsSub pat hay = true → containsSub pat (hay ++ ext) = true
  | pat, [], ext, h => by
      have hp : pat = [] := by simpa [containsSub, List.isEmpty_iff] using h
      simpa [hp] using containsSub_nil ext
  | pat, c :: t, ext, h => by
      simp only [containsSub, Bool.or_eq_true] at h
      simp only [List.cons_append, containsSub, Bool.or_eq_true]
      rcases h with h | h
      · exact Or.inl (isPrefixOf_append_ext _ _ _ h)
      · exact Or.inr (containsSub_mono pat t ext h)

/-- A list contains any of its terminal segments as a substring. -/
theorem containsSub_append_self : ∀ (pre pat : Str), containsSub pat (pre ++ pat) = true
  | [], [] => rfl
  | [], _ :: _ => by simp [containsSub, isPrefixOf_refl]
  | _ :: pre, pat => by
      simp only [List.cons_append, containsSub, Bool.or_eq_true]
      exact Or.inr (containsSub_append_self pre pat)

/-! ## Lemmas about keyword expansion -/

/-- The instrumented inner loop computes the same expanded text as the
source's inner loop. -/
theorem expandStepL_fst : ∀ (ks : List Str) (e : Str) (acc : List Str),
    (expandStepL e acc ks).1 = expandStep e ks
  | [], _, _ => rfl
  | kw :: rest, e, acc => by
      by_cases h : containsSub kw e = true
      · simp [expandStepL, expandStep, h, expandStepL_fst rest]
      · simp [expandStepL, expandStep, h, expandStepL_fst rest]

/-- The instrumented outer loop computes the same expanded text as the
source's outer loop. -/
theorem expandAuxL_fst (text : Str) :
    ∀ (l : List ((Str × List Str) × List Str)) (e : Str) (acc : List Str),
    (expandAuxL text e acc l).1 = expandAux text e l
  | [], _, _ => rfl
  | ((g, kws), selected) :: rest, e, acc => by
      by_cases h : containsSub (lower g) (lower text) = true
      · simp [expandAuxL, expandAux, h, expandAuxL_fst text rest, expandStepL_fst]
      · simp [expandAuxL, expandAux, h, expandAuxL_fst text rest]

/-- The inner loop appends exactly the fragments of the keywords it records,
and records only keywords of its sample. -/
theorem expandStepL_decomp : ∀ (ks : List Str) (e : Str) (acc : List Str),
    ∃ ds : List Str,
      (expandStepL e acc ks).1 = e ++ (ds.map frag).flatten ∧
      (expandStepL e acc ks).2 = acc ++ ds ∧
      ∀ k ∈ ds, k ∈ ks
  | [], e, acc => ⟨[], by simp [expandStepL]⟩
  | kw :: rest, e, acc => by
      by_cases h : containsSub kw e = true
      · obtain ⟨ds, h1, h2, h3⟩ := expandStepL_decomp rest e acc
        exact ⟨ds, by simp [expandStepL, h, h1], by simp [expandStepL, h, h2],
          fun k hk => List.mem_cons_of_mem _ (h3 k hk)⟩
      · obtain ⟨ds, h1, h2, h3⟩ := expandStepL_decomp rest (e ++ frag kw) (acc ++ [kw])
        refine ⟨kw :: ds, ?_, ?_, ?_⟩
        · simp [expandStepL, h, h1, List.append_assoc]
        · simp [expandStepL, h, h2]
        · intro k hk
          rcases List.mem_cons.mp hk with rfl | hk
          · exact List.mem_cons_self _ _
          · exact List.mem_cons_of_mem _ (h3 k hk)

/-- The outer loop appends exactly the fragments of the keywords it records,
and records only keywords of the samples of listed entries. -/
theorem expandAuxL_decomp (text : Str) :
    ∀ (l : List ((Str × List Str) × List Str)) (e : Str) (acc : List Str),
    ∃ ds : List Str,
      (expandAuxL text e acc l).1 = e ++ (ds.map frag).flatten ∧
      (expandAuxL text e acc l).2 = acc ++ ds ∧
      ∀ k ∈ ds, ∃ p ∈ l, k ∈ p.2
  | [], e, acc => ⟨[], by simp [expandAuxL]⟩
  | ((g, kws), selected) :: rest, e, acc => by
      by_cases h : containsSub (lower g) (lower text) = true
      · obtain ⟨ds1, s1, s2, s3⟩ := expandStepL_decomp selected e acc
        obtain ⟨ds2, a1, a2, a3⟩ := expandAuxL_decomp text rest
          (expandStepL e acc selected).1 (expandStepL e acc selected).2
        refine ⟨ds1 ++ ds2, ?_, ?_, ?_⟩
        · simp only [expandAuxL, h, if_pos]
          rw [a1, s1]
          simp [List.append_assoc]
        · simp only [expandAuxL, h, if_pos]
          rw [a2, s2]
          simp [List.append_assoc]
        · intro k hk
          rcases List.mem_append.mp hk with hk | hk
          · exact ⟨((g, kws), selected), List.mem_cons_self _ _, s3 k hk⟩
          · obtain ⟨p, hp, hkp⟩ := a3 k hk
            exact ⟨p, List.mem_cons_of_mem _ hp, hkp⟩
      · obtain ⟨ds, a1, a2, a3⟩ := expandAuxL_decomp text rest e acc
        refine ⟨ds, by simp [expandAuxL, h, a1], by simp [expandAuxL, h, a2], ?_⟩
        intro k hk
        obtain ⟨p, hp, hkp⟩ := a3 k hk
        exact ⟨p, List.mem_cons_of_mem _ hp, hkp⟩

/-- Inner-loop invariant: every recorded keyword occurs in the expanded text,
the recorded keywords are distinct, the expanded text extends the original
input, and no recorded keyword occurred in the original input. -/
theorem expandStepL_inv (text : Str) : ∀ (ks : List Str) (e : Str) (acc : List Str),
    (∀ k ∈ acc, containsSub k e = true) → acc.Nodup →
    (∃ s, e = text ++ s) → (∀ k ∈ acc, containsSub k text = false) →
    (∀ k ∈ (expandStepL e acc ks).2, containsSub k (expandStepL e acc ks).1 = true) ∧
      (expandStepL e acc ks).2.Nodup ∧
      (∃ s, (expandStepL e acc ks).1 = text ++ s) ∧
      (∀ k ∈ (expandStepL e acc ks).2, containsSub k text = false)
  | [], e, acc, hIn, hNd, hPre, hTx => ⟨hIn, hNd, hPre, hTx⟩
  | kw :: rest, e, acc, hIn, hNd, hPre, hTx => by
      by_cases h : containsSub kw e = true
      · have ih := expandStepL_inv text rest e acc hIn hNd hPre hTx
        simpa [expandStepL, h] using ih
      · obtain ⟨s, hs⟩ := hPre
        have hIn1 : ∀ k ∈ acc ++ [kw], containsSub k (e ++ frag kw) = true := by
          intro k hk
          rcases List.mem_append.mp hk with hk | hk
          · exact containsSub_mono _ _ _ (hIn k hk)
          · rcases List.mem_singleton.mp hk with rfl
            have hrw : e ++ frag k = (e ++ " | ".toList) ++ k := by
              simp [frag, List.append_assoc]
            rw [hrw]
            exact containsSub_append_self _ _
        have hkwacc : kw ∉ acc := by
          intro hmem
          exact absurd (hIn kw hmem) h
        have hNd1 : (acc ++ [kw]).Nodup := by
          simp [List.nodup_append, hNd, hkwacc]
        have hPre1 : ∃ s1, e ++ frag kw = text ++ s1 :=
          ⟨s ++ frag kw, by rw [hs, List.append_assoc]⟩
        have hTx1 : ∀ k ∈ acc ++ [kw], containsSub k text = false := by
          intro k hk
          rcases List.mem_append.mp hk with hk | hk
          · exact hTx k hk
          · rcases List.mem_singleton.mp hk with rfl
            by_contra hcc
            have hkt : containsSub k text = true := by
              revert hcc
              cases containsSub k text <;> simp
            have : containsSub k e = true := by
              rw [hs]
              exact containsSub_mono _ _ _ hkt
            exact absurd this h
        have ih := expandStepL_inv text rest (e ++ frag kw) (acc ++ [kw]) hIn1 hNd1 hPre1 hTx1
        simpa [expandStepL, h] using ih

/-- Outer-loop invariant: same statement as `expandStepL_inv`, over the whole
taxonomy traversal. -/
theorem expandAuxL_inv (text : Str) :
    ∀ (l : List ((Str × List Str) × List Str)) (e : Str) (acc : List Str),
    (∀ k ∈ acc, containsSub k e = true) → acc.Nodup →
    (∃ s, e = text ++ s) → (∀ k ∈ acc, containsSub k text = false) →
    (∀ k ∈ (expandAuxL text e acc l).2, containsSub k (expandAuxL text e acc l).1 = true) ∧
      (expandAuxL text e acc l).2.Nodup ∧
      (∃ s, (expandAuxL text e acc l).1 = text ++ s) ∧
      (∀ k ∈ (expandAuxL text e acc l).2, containsSub k text = false)
  | [], e, acc, hIn, hNd, hPre, hTx => ⟨hIn, hNd, hPre, hTx⟩
  | ((g, kws), selected) :: rest, e, acc, hIn, hNd, hPre, hTx => by
      by_cases h : containsSub (lower g) (lower text) = true
      · have hstep := expandStepL_inv text selected e acc hIn hNd hPre hTx
        have ih := expandAuxL_inv text rest
          (expandStepL e acc selected).1 (expandStepL e acc selected).2
          hstep.1 hstep.2.1 hstep.2.2.1 hstep.2.2.2
        simpa [expandAuxL, h] using ih
      · have ih := expandAuxL_inv text rest e acc hIn hNd hPre hTx
        simpa [expandAuxL, h] using ih

/-- If no listed entry's label matches the input text, the outer loop leaves
the expanded text unchanged. -/
theorem expandAux_no_match (text : Str) :
    ∀ (l : List ((Str × List Str) × List Str)) (e : Str),
    (∀ p ∈ l, containsSub (lower p.1.1) (lower text) = false) →
    expandAux text e l = e
  | [], _, _ => rfl
  | ((g, kws), selected) :: rest, e, H => by
      have hg : containsSub (lower g) (lower text) = false :=
        H ((g, kws), selected) (List.mem_cons_self _ _)
      have ih := expandAux_no_match text rest e
        (fun p hp => H p (List.mem_cons_of_mem _ hp))
      simp [expandAux, hg, ih]

/-- The first component of a pair in a zip lies in the first list. -/
theorem zip_fst_mem {A B : Type} :
    ∀ {l1 : List A} {l2 : List B} {p : A × B}, p ∈ l1.zip l2 → p.1 ∈ l1
  | a :: l1, b :: l2, p, hp => by
      rcases List.mem_cons.mp hp with rfl | hp
      · exact List.mem_cons_self _ _
      · exact List.mem_cons_of_mem _ (zip_fst_mem hp)

/-! ## Lemmas about PDF text extraction -/

/-- The extractor's fold appends `extractBody` to its accumulator. -/
theorem foldl_pageStep : ∀ (pages : List (Option Str)) (acc : Str),
    pages.foldl pageStep acc = acc ++ extractBody pages
  | [], acc => by simp [extractBody, pageTexts]
  | none :: rest, acc => by
      simp [List.foldl_cons, pageStep, foldl_pageStep rest, extractBody, pageTexts,
        List.filterMap_cons]
  | some t :: rest, acc => by
      by_cases h : t = []
      · subst h
        simp [List.foldl_cons, pageStep, foldl_pageStep rest, extractBody, pageTexts,
          List.filterMap_cons]
      · simp [List.foldl_cons, pageStep, foldl_pageStep rest, extractBody, pageTexts,
          List.filterMap_cons, List.isEmpty_iff, h, List.append_assoc]

/-- For a non-empty text list, the per-page `text + "\n"` concatenation is the
newline-join followed by one trailing newline. -/
theorem flatten_map_newline : ∀ ts : List Str, ts ≠ [] →
    (ts.map (fun t => t ++ ['\n'])).flatten = joinNL ts ++ ['\n']
  | [], h => absurd rfl h
  | [t], _ => by simp [joinNL]
  | t1 :: t2 :: rest, _ => by
      have ih := flatten_map_newline (t2 :: rest) (by simp)
      have hj : joinNL (t1 :: t2 :: rest) = t1 ++ '\n' :: joinNL (t2 :: rest) := rfl
      simp only [List.map_cons, List.flatten_cons] at ih ⊢
      rw [ih, hj]
      simp [List.append_assoc]

/-- Removing trailing whitespace ignores a final newline. -/
theorem rtrim_append_newline (x : Str) : rtrim (x ++ ['\n']) = rtrim x := by
  have h : isSpace '\n' = true := by decide
  simp [rtrim, List.reverse_append, List.dropWhile_cons, h]

/-- Stripping ignores a final newline. -/
theorem strip_append_newline (x : Str) : strip (x ++ ['\n']) = strip x := by
  simp [strip, rtrim_append_newline]

/-- The extractor agrees with the spec's trimmed newline-join description. -/
theorem extract_eq_spec (pages : List (Option Str)) :
    extract_text_from_pdf pages = extract_spec pages := by
  rw [extract_text_from_pdf, foldl_pageStep, List.nil_append, extract_spec]
  by_cases h : pageTexts pages = []
  · simp [extractBody, h, joinNL]
  · rw [extractBody, flatten_map_newline _ h, strip_append_newline]

/-- `dropWhile` keeps every element that fails the predicate. -/
theorem mem_dropWhile_of_not_space : ∀ (l : Str) (c : Char), c ∈ l → isSpace c = false →
    c ∈ l.dropWhile isSpace
  | [], c, hc, _ => absurd hc (List.not_mem_nil c)
  | a :: t, c, hc, hns => by
      rcases List.mem_cons.mp hc with rfl | hc
      · simp [List.dropWhile_cons, hns]
      · by_cases ha : isSpace a = true
        · simpa [List.dropWhile_cons, ha] using mem_dropWhile_of_not_space t c hc hns
        · simp only [List.dropWhile_cons, ha, if_false, Bool.false_eq_true]
          exact List.mem_cons_of_mem _ hc

/-- Stripping keeps every non-whitespace character. -/
theorem mem_strip_of_not_space (l : Str) (c : Char) (hc : c ∈ l)
    (hns : isSpace c = false) : c ∈ strip l := by
  rw [strip, ltrim, rtrim]
  apply mem_dropWhile_of_not_space _ _ _ hns
  rw [List.mem_reverse]
  exact mem_dropWhile_of_not_space _ _ (List.mem_reverse.mpr hc) hns

/-- Characters of contributing pages occur in the accumulated body. -/
theorem mem_extractBody {pages : List (Option Str)} {t : Str}
    (ht : t ∈ pageTexts pages) {c : Char} (hc : c ∈ t) : c ∈ extractBody pages := by
  rw [extractBody]
  exact List.mem_flatten.mpr ⟨t ++ ['\n'], List.mem_map_of_mem _ ht,
    List.mem_append_left _ hc⟩

/-- A non-empty page text is listed among the page texts. -/
theorem mem_pageTexts {pages : List (Option Str)} {t : Str} (hp : some t ∈ pages)
    (hne : t.isEmpty = false) : t ∈ pageTexts pages := by
  rw [pageTexts]
  refine List.mem_filterMap.mpr ⟨some t, hp, ?_⟩
  simp [hne]

/-- If every page is `None` or empty, no page text is collected. -/
theorem pageTexts_eq_nil : ∀ (pages : List (Option Str)),
    (∀ p ∈ pages, p = none ∨ p = some []) → pageTexts pages = []
  | [], _ => rfl
  | p :: rest, H => by
      have hrest := pageTexts_eq_nil rest (fun q hq => H q (List.mem_cons_of_mem _ hq))
      rcases H p (List.mem_cons_self _ _) with rfl | rfl
      · simpa [pageTexts, List.filterMap_cons] using hrest
      · simpa [pageTexts, List.filterMap_cons] using hrest

/-! ## Lemmas about the extension check -/

/-- The head of a `dropWhile` residue fails the predicate. -/
theorem dropWhile_head_false {p : Char → Bool} :
    ∀ (l t : Str) (c : Char), l.dropWhile p = c :: t → p c = false
  | a :: rest, t, c, h => by
      by_cases ha : p a = true
      · rw [List.dropWhile_cons, if_pos ha] at h
        exact dropWhile_head_false rest t c h
      · rw [List.dropWhile_cons, if_neg ha] at h
        cases h
        exact Bool.eq_false_iff.mpr ha

/-- Every element of a `takeWhile` segment satisfies the predicate. -/
theorem takeWhile_mem_true {p : Char → Bool} :
    ∀ (l : Str) (c : Char), c ∈ l.takeWhile p → p c = true
  | a :: rest, c, h => by
      by_cases ha : p a = true
      · rw [List.takeWhile_cons, if_pos ha] at h
        rcases List.mem_cons.mp h with rfl | h
        · exact ha
        · exact takeWhile_mem_true rest c h
      · rw [List.takeWhile_cons, if_neg ha] at h
        exact absurd h (List.not_mem_nil c)

/-- `takeWhile` stops exactly at the first failing element. -/
theorem takeWhile_append_stop {p : Char → Bool} :
    ∀ (xs : Str) (y : Char) (ys : Str), (∀ x ∈ xs, p x = true) → p y = false →
    (xs ++ y :: ys).takeWhile p = xs
  | [], y, ys, _, hy => by simp [List.takeWhile_cons, hy]
  | x :: xs, y, ys, hxs, hy => by
      have hx : p x = true := hxs x (List.mem_cons_self _ _)
      simp only [List.cons_append, List.takeWhile_cons, if_pos hx]
      rw [takeWhile_append_stop xs y ys (fun a ha => hxs a (List.mem_cons_of_mem _ ha)) hy]

/-! ## Claim theorems -/

/-- Claim C1 (code bug): on the PDF-extraction-failure exit path of `/tailor`
the saved temporary file is NOT removed. With a present upload, an allowed
filename and a non-empty job description, when `extract_text_from_pdf`
raises, the handler lets the exception propagate after `file.save` without
calling `os.remove`: `fileSaved = true` but `fileRemoved = false`. -/
theorem tailor_extractExn_leaves_tempfile :
    (tailor_resume true "resume.pdf".toList "Teach grade 5 math".toList
        (Except.error ()) (Except.ok "done".toList)).fileSaved = true ∧
    (tailor_resume true "resume.pdf".toList "Teach grade 5 math".toList
        (Except.error ()) (Except.ok "done".toList)).fileRemoved = false ∧
    (tailor_resume true "resume.pdf".toList "Teach grade 5 math".toList
        (Except.error ()) (Except.ok "done".toList)).response = ResponseKind.extractExn := by
  decide

/-- Claim C2 (counterexample): the static taxonomy does not have nine
categories — `SKILL_MAP` has eight entries. -/
theorem skillMap_not_nine_categories : ¬ (SKILL_MAP.length = 9) := by
  decide

/-- Claim C2 (amended): the static skill taxonomy contains exactly eight
categories, every category maps to between 4 and 9 keywords, every category
has at least one keyword, and the keywords within each category are pairwise
distinct. -/
theorem skillMap_eight_categories_bounds :
    SKILL_MAP.length = 8 ∧
    ∀ e ∈ SKILL_MAP, (4 ≤ e.2.length ∧ e.2.length ≤ 9) ∧ e.2 ≠ [] ∧ e.2.Nodup := by
  decide

/-- Witness for claim C2: the `"classroom management"` category satisfies the
bounds. -/
theorem skillMap_bounds_witness :
    (4 ≤ cmKeywords.length ∧ cmKeywords.length ≤ 9) ∧ cmKeywords ≠ [] ∧ cmKeywords.Nodup :=
  skillMap_eight_categories_bounds.2 ("classroom management".toList, cmKeywords) (by decide)

/-- Claim C9: prompt composition is deterministic — two runs on equal
(expanded resume text, job description) pairs compose byte-identical
prompts. -/
theorem tailor_prompt_deterministic (r1 j1 r2 j2 : Str) (hr : r1 = r2) (hj : j1 = j2) :
    tailor_prompt r1 j1 = tailor_prompt r2 j2 := by
  rw [hr, hj]

/-- Witness for claim C9 at a concrete input pair. -/
theorem tailor_prompt_deterministic_witness :
    tailor_prompt "Resume".toList "Job".toList = tailor_prompt "Resume".toList "Job".toList :=
  tailor_prompt_deterministic _ _ _ _ rfl rfl

/-- A suffix of a list is a suffix of any left-extension of it. -/
theorem isSuffixOf_append_ext (pat ys xs : Str) (h : List.isSuffixOf pat ys = true) :
    List.isSuffixOf pat (xs ++ ys) = true := by
  simp only [List.isSuffixOf] at h ⊢
  rw [List.reverse_append]
  exact isPrefixOf_append_ext _ _ _ h

set_option maxRecDepth 20000

/-- Claim C3 (counterexample): the composed prompt does not state exactly five
numbered rewriting rules — at a concrete input pair it contains six numbered
rule lines. -/
theorem prompt_not_five_rules :
    ¬ (countRules (tailor_prompt "RESUME BODY".toList "JOB TEXT".toList) = 5) := by
  decide

/-- Claim C3 (amended): for every pair of resume text and job-description
string, the composed prompt is the fixed template with the two inputs
embedded verbatim; the fixed part states the task and exactly six numbered
rewriting rules (the sixth instructing to output only the final resume); the
resume text sits under the `RESUME:` label, the job description under the
`JOB DESCRIPTION:` label; and the prompt ends with the `TAILORED RESUME:`
output header. -/
theorem prompt_structure_six_rules (r j : Str) :
    tailor_prompt r j = promptHead ++ r ++ promptMid ++ j ++ promptTail ∧
    countRules promptHead = 6 ∧
    containsSub "Your task: Rewrite".toList promptHead = true ∧
    containsSub "6. Output ONLY the final resume in clean, plain text.".toList promptHead = true ∧
    List.isSuffixOf "\nRESUME:\n".toList promptHead = true ∧
    promptMid = "\n\nJOB DESCRIPTION:\n".toList ∧
    List.isSuffixOf "\n\nTAILORED RESUME:\n".toList (tailor_prompt r j) = true := by
  refine ⟨rfl, by decide, by decide, by decide, by decide, rfl, ?_⟩
  have hsplit : tailor_prompt r j = (promptHead ++ r ++ promptMid ++ j) ++ promptTail := by
    simp [tailor_prompt, List.append_assoc]
  rw [hsplit]
  exact isSuffixOf_append_ext _ _ _ (by decide)

/-- Claim C4: for every input text, taxonomy and random outcome, each
appended keyword is appended at most once — the recorded appended keywords
are pairwise distinct, the output is exactly the input followed by their
fragments in append order, and a keyword already present in the input text
is never appended. -/
theorem expand_appends_each_keyword_once (text : Str)
    (skill_map : List (Str × List Str)) (sel : List (List Str)) :
    (appendedKeywords text skill_map sel).Nodup ∧
    expand_keywords text skill_map sel
      = text ++ ((appendedKeywords text skill_map sel).map frag).flatten ∧
    ∀ kw ∈ appendedKeywords text skill_map sel, containsSub kw text = false := by
  have hinv := expandAuxL_inv text (skill_map.zip sel) text []
    (fun k hk => absurd hk (List.not_mem_nil k))
    List.nodup_nil ⟨[], by simp⟩
    (fun k hk => absurd hk (List.not_mem_nil k))
  obtain ⟨ds, h1, h2, h3⟩ := expandAuxL_decomp text (skill_map.zip sel) text []
  refine ⟨hinv.2.1, ?_, hinv.2.2.2⟩
  rw [expand_keywords, ← expandAuxL_fst text, appendedKeywords, h1, h2]
  simp

/-- Witness for claim C4: in the scenario run, the appended keyword `PBIS`
was not already present in the input text. -/
theorem expand_appends_once_witness :
    containsSub "PBIS".toList "Strong classroom management skills".toList = false :=
  (expand_appends_each_keyword_once "Strong classroom management skills".toList SKILL_MAP
      [["PBIS".toList, "UDL".toList], [], [], [], [], [], [], []]).2.2
    "PBIS".toList (by decide)

/-- Claim C5: for every input text, taxonomy and random outcome (samples
drawn from the paired entries' keyword lists), the output is the input text
followed by zero or more `" | <keyword>"` fragments whose keywords come from
the taxonomy; in particular no character of the input is removed or
reordered. -/
theorem expand_preserves_input_as_prefix (text : Str)
    (skill_map : List (Str × List Str)) (sel : List (List Str))
    (H : ∀ p ∈ skill_map.zip sel, ∀ k ∈ p.2, k ∈ p.1.2) :
    ∃ kws : List Str,
      expand_keywords text skill_map sel = text ++ (kws.map frag).flatten ∧
      ∀ k ∈ kws, ∃ e ∈ skill_map, k ∈ e.2 := by
  obtain ⟨ds, h1, h2, h3⟩ := expandAuxL_decomp text (skill_map.zip sel) text []
  refine ⟨ds, ?_, ?_⟩
  · rw [expand_keywords, ← expandAuxL_fst text, h1]
  · intro k hk
    obtain ⟨p, hp, hkp⟩ := h3 k hk
    exact ⟨p.1, zip_fst_mem hp, H p hp k hkp⟩

/-- Witness for claim C5 at the scenario input with a concrete sample. -/
theorem expand_prefix_witness :
    ∃ kws : List Str,
      expand_keywords "Strong classroom management skills".toList SKILL_MAP
          [["PBIS".toList, "restorative practices".toList], [], [], [], [], [], [], []]
        = "Strong classroom management skills".toList ++ (kws.map frag).flatten ∧
      ∀ k ∈ kws, ∃ e ∈ SKILL_MAP, k ∈ e.2 :=
  expand_preserves_input_as_prefix _ SKILL_MAP _ (by decide)

/-- Claim C6: if no taxonomy category label occurs case-insensitively as a
substring of the input text, keyword expansion returns the input exactly
unchanged (and, being a total function, it never raises). -/
theorem expand_no_match_identity (text : Str) (skill_map : List (Str × List Str))
    (sel : List (List Str))
    (H : ∀ e ∈ skill_map, containsSub (lower e.1) (lower text) = false) :
    expand_keywords text skill_map sel = text := by
  rw [expand_keywords]
  exact expandAux_no_match text _ text (fun p hp => H p.1 (zip_fst_mem hp))

/-- Witness for claim C6: no `SKILL_MAP` label occurs in `"hello world"`. -/
theorem expand_no_match_witness :
    expand_keywords "hello world".toList SKILL_MAP [] = "hello world".toList :=
  expand_no_match_identity _ SKILL_MAP [] (by decide)

/-- Claim C7: a matched category contributes a sample of exactly
`min 2 |keywords|` keywords. For the scenario input
`"Strong classroom management skills"`, whose only matching category is
`"classroom management"` (a `SKILL_MAP` entry with six keywords, so the
sample size is `min 2 6 = 2`): for every sample of two distinct keywords of
that category, exactly those two keywords are appended, with no
duplicates. -/
theorem expand_scenario_two_keywords :
    ("classroom management".toList, cmKeywords) ∈ SKILL_MAP ∧
    min 2 cmKeywords.length = 2 ∧
    ∀ k1 ∈ cmKeywords, ∀ k2 ∈ cmKeywords, k1 ≠ k2 →
      expand_keywords "Strong classroom management skills".toList SKILL_MAP
          [[k1, k2], [], [], [], [], [], [], []]
        = "Strong classroom management skills".toList ++ frag k1 ++ frag k2 ∧
      appendedKeywords "Strong classroom management skills".toList SKILL_MAP
          [[k1, k2], [], [], [], [], [], [], []] = [k1, k2] := by
  decide

/-- Witness for claim C7 at the sample `[PBIS, behavior management]`. -/
theorem expand_scenario_witness :
    expand_keywords "Strong classroom management skills".toList SKILL_MAP
        [["PBIS".toList, "behavior management".toList], [], [], [], [], [], [], []]
      = "Strong classroom management skills".toList
          ++ frag "PBIS".toList ++ frag "behavior management".toList ∧
    appendedKeywords "Strong classroom management skills".toList SKILL_MAP
        [["PBIS".toList, "behavior management".toList], [], [], [], [], [], [], []]
      = ["PBIS".toList, "behavior management".toList] :=
  expand_scenario_two_keywords.2.2 "PBIS".toList (by decide)
    "behavior management".toList (by decide) (by decide)

/-- Claim C8 (counterexample): a page can bear text (be neither `None` nor
empty) while the extraction result is still empty — a single page whose
extracted text is the whitespace string `" "` yields the empty result. -/
theorem extract_whitespace_page_empty :
    (some [' '] ∈ ([some [' ']] : List (Option Str)) ∧
      some ([' '] : Str) ≠ none ∧ ([' '] : Str) ≠ []) ∧
    extract_text_from_pdf [some [' ']] = [] := by
  decide

/-- Claim C8 (amended): for every PDF that opens successfully, modelled as
its ordered list of per-page extracted texts, the extractor returns the
concatenation of the non-empty page texts joined by a single newline per
page boundary with leading and trailing whitespace stripped; if at least one
page bears text containing a non-whitespace character the result is
non-empty, and if no page bears text the result is the empty string rather
than an error. -/
theorem extract_join_strip_amended (pages : List (Option Str)) :
    extract_text_from_pdf pages = extract_spec pages ∧
    ((∃ p ∈ pages, ((p.getD []).any fun c => !(isSpace c)) = true) →
      extract_text_from_pdf pages ≠ []) ∧
    ((∀ p ∈ pages, p = none ∨ p = some []) → extract_text_from_pdf pages = []) := by
  refine ⟨extract_eq_spec pages, ?_, ?_⟩
  · rintro ⟨p, hp, hany⟩
    cases p with
    | none => simp at hany
    | some t =>
      obtain ⟨c, hc, hcs⟩ := List.any_eq_true.mp hany
      have hcmem : c ∈ t := hc
      have hns : isSpace c = false := by simpa using hcs
      have htne : t.isEmpty = false := by
        cases t with
        | nil => exact absurd hcmem (List.not_mem_nil c)
        | cons a b => rfl
      have hbody : c ∈ extractBody pages :=
        mem_extractBody (mem_pageTexts hp htne) hcmem
      have hres : c ∈ extract_text_from_pdf pages := by
        rw [extract_text_from_pdf, foldl_pageStep, List.nil_append]
        exact mem_strip_of_not_space _ _ hbody hns
      exact List.ne_nil_of_mem hres
  · intro H
    rw [extract_text_from_pdf, foldl_pageStep, List.nil_append, extractBody,
      pageTexts_eq_nil pages H]
    simp [strip, ltrim, rtrim]

/-- Witness for claim C8: a one-page PDF reading `"Hi"` extracts to a
non-empty result. -/
theorem extract_nonempty_witness :
    extract_text_from_pdf [some "Hi".toList] ≠ [] :=
  (extract_join_strip_amended [some "Hi".toList]).2.1
    ⟨some "Hi".toList, by decide, by decide⟩

/-- Characterization of `afterLastDot` on an explicit last-dot split. -/
theorem afterLastDot_spec (a b : Str) (hnb : '.' ∉ b) :
    afterLastDot (a ++ '.' :: b) = b := by
  have hall : ∀ x ∈ b.reverse, (!(x == '.')) = true := by
    intro x hx
    have hxb : x ∈ b := List.mem_reverse.mp hx
    have hne : ¬ (x = '.') := fun hxe => hnb (hxe ▸ hxb)
    simp [hne]
  have hy : (!(('.' : Char) == '.')) = false := by simp
  rw [afterLastDot, List.reverse_append]
  have h1 : ('.' :: b).reverse = b.reverse ++ ['.'] := by simp
  rw [h1, List.append_assoc, List.singleton_append]
  rw [takeWhile_append_stop b.reverse '.' a.reverse hall hy, List.reverse_reverse]

/-- A string containing a dot splits at its last dot, `afterLastDot` being
the dot-free segment after it. -/
theorem exists_split_afterLastDot (fn : Str) (hmem : '.' ∈ fn) :
    (∃ a : Str, fn = a ++ '.' :: afterLastDot fn) ∧ '.' ∉ afterLastDot fn := by
  constructor
  · cases hd : fn.reverse.dropWhile (fun c => !(c == '.')) with
    | nil =>
        exfalso
        have heq : fn.reverse.takeWhile (fun c => !(c == '.')) = fn.reverse := by
          have hsum := List.takeWhile_append_dropWhile (p := fun c => !(c == '.'))
            (l := fn.reverse)
          rw [hd] at hsum
          simpa using hsum
        have hmem2 : '.' ∈ fn.reverse.takeWhile (fun c => !(c == '.')) := by
          rw [heq]
          exact List.mem_reverse.mpr hmem
        have hp := takeWhile_mem_true (p := fun c => !(c == '.')) fn.reverse '.' hmem2
        simp at hp
    | cons c t =>
        have hc : (!(c == '.')) = false := dropWhile_head_false _ _ _ hd
        have hcd : c = '.' := by simpa using hc
        subst hcd
        refine ⟨t.reverse, ?_⟩
        have hsplit : fn.reverse
            = fn.reverse.takeWhile (fun c => !(c == '.')) ++ '.' :: t := by
          conv_lhs => rw [← List.takeWhile_append_dropWhile
            (p := fun c => !(c == '.')) (l := fn.reverse)]
          rw [hd]
        conv_lhs => rw [← List.reverse_reverse fn, hsplit]
        rw [afterLastDot]
        simp [List.reverse_append, List.append_assoc]
  · intro hdot
    rw [afterLastDot] at hdot
    have h1 := takeWhile_mem_true (p := fun c => !(c == '.')) fn.reverse '.'
      (List.mem_reverse.mp hdot)
    simp at h1

/-- Claim C10: the file-type check accepts a filename iff it contains a dot
and the segment after its last dot lowercases to `"pdf"`; dotless names are
rejected, the comparison is case-insensitive (`"x.PDF"` accepted), and only
the final extension is consulted (`"x.pdf.exe"` rejected, `"x.exe.pdf"`
accepted). -/
theorem allowed_file_iff_pdf_ext :
    (∀ fn : Str, allowed_file fn = true ↔
      ∃ a b : Str, fn = a ++ '.' :: b ∧ '.' ∉ b ∧ lower b = "pdf".toList) ∧
    allowed_file "x.PDF".toList = true ∧
    allowed_file "xpdf".toList = false ∧
    allowed_file "x.pdf.exe".toList = false ∧
    allowed_file "x.exe.pdf".toList = true := by
  refine ⟨?_, by decide, by decide, by decide, by decide⟩
  intro fn
  constructor
  · intro h
    rw [allowed_file, Bool.and_eq_true] at h
    obtain ⟨hdot, hext⟩ := h
    have hmem : '.' ∈ fn := of_decide_eq_true hdot
    obtain ⟨⟨a, ha⟩, hnd⟩ := exists_split_afterLastDot fn hmem
    exact ⟨a, afterLastDot fn, ha, hnd, of_decide_eq_true hext⟩
  · rintro ⟨a, b, rfl, hnb, hlb⟩
    rw [allowed_file, Bool.and_eq_true]
    refine ⟨decide_eq_true ?_, decide_eq_true ?_⟩
    · exact List.mem_append_right a (List.mem_cons_self _ _)
    · rw [afterLastDot_spec a b hnb, hlb]

/-- Witness for claim C10: the accepted filename `"x.exe.pdf"` indeed splits
at its last dot with extension lowercasing to `"pdf"`. -/
theorem allowed_file_iff_witness :
    ∃ a b : Str, "x.exe.pdf".toList = a ++ '.' :: b ∧ '.' ∉ b ∧ lower b = "pdf".toList :=
  (allowed_file_iff_pdf_ext.1 "x.exe.pdf".toList).mp (by decide)
